import Mathlib

/-!
Verification of the wiki-ngram pipeline (crates/wiki-ngram) against its
natural-language specification.

The Rust sources are shallowly embedded as follows:
* Rust `String` values that are iterated character by character
  (`text.chars()`) are modelled as `List Char`; Rust byte-level views
  (`str::len`, `str::as_bytes`, `String` comparison) go through an explicit
  UTF-8 encoder `strBytes : List Char → List Nat`.
* `HashMap<String, usize>` is modelled as an association list
  `Table = List (Str × Nat)`; the hash map's key-uniqueness invariant is
  carried as an explicit `Nodup` hypothesis where a claim needs it.
* Fallible Rust code (`Result`) is modelled with `Except`.
-/

/-- Model of a Rust `String` viewed as a sequence of `char`s. -/
abbrev Str := List Char

/-- Model of `HashMap<String, usize>`: an association list from n-gram key to
count.  A real hash map never holds two entries with the same key; claims that
depend on this carry it as a hypothesis. -/
abbrev Table := List (Str × Nat)

/-- Lookup of a key's count; `0` for an absent key, mirroring
`usize` counts that only exist once inserted (`entry(k).or_insert(0)`). -/
def getCount : Table → Str → Nat
  | [], _ => 0
  | (k', v) :: rest, k => if k = k' then v else getCount rest k

/-- `*map.entry(ngram).or_insert(0) += 1`: increment the key's count,
inserting it with count 1 when absent. -/
def bump : Table → Str → Table
  | [], k => [(k, 1)]
  | (k', v) :: rest, k => if k = k' then (k', v + 1) :: rest else (k', v) :: bump rest k

/-- Rust `slice::windows(n)`: all contiguous windows of length `n`, in order.
Empty when the slice is shorter than `n`. -/
def windows (n : Nat) : List α → List (List α)
  | [] => []
  | x :: xs => if n ≤ (x :: xs).length then (x :: xs).take n :: windows n xs else []

/-- Rust `[String]::join(" ")`. -/
def joinSpace (ws : List Str) : Str := List.intercalate [' '] ws

/-- `extract_ngrams_from_tokens` (ngram.rs): for each `n` in `2..=max_ngram`,
skip if the token list is shorter than `n`, else bump the count of the
space-joined key of every contiguous window of `n` tokens. -/
def extract_ngrams_from_tokens (tokens : List Str) (max_ngram : Nat) (ngram_counts : Table) :
    Table :=
  (List.range' 2 (max_ngram + 1 - 2)).foldl
    (fun acc n =>
      if tokens.length < n then acc
      else (windows n tokens).foldl (fun a w => bump a (joinSpace w)) acc)
    ngram_counts

/-- Number of contiguous windows (over all `n` in `2..=max_ngram`) whose
space-joined key is `k`. -/
def ngramOccurrences (tokens : List Str) (max_ngram : Nat) (k : Str) : Nat :=
  ((List.range' 2 (max_ngram + 1 - 2)).map
    (fun n => (windows n tokens).countP (fun w => decide (joinSpace w = k)))).sum

/-- UTF-8 encoding of one Unicode scalar value (a Rust `char`), as the list of
its byte values. -/
def charUtf8 (c : Char) : List Nat :=
  let n := c.toNat
  if n < 0x80 then [n]
  else if n < 0x800 then [0xC0 + n / 64, 0x80 + n % 64]
  else if n < 0x10000 then [0xE0 + n / 4096, 0x80 + n / 64 % 64, 0x80 + n % 64]
  else [0xF0 + n / 262144, 0x80 + n / 4096 % 64, 0x80 + n / 64 % 64, 0x80 + n % 64]

/-- Rust `str::as_bytes`: the UTF-8 byte sequence of a string. -/
def strBytes (s : Str) : List Nat := s.flatMap charUtf8

/-- Lexicographic strict order on byte sequences: Rust's
`Ord for [u8]` / `Ord for str` / `Ord for String`. -/
def bytesLt : List Nat → List Nat → Bool
  | [], [] => false
  | [], _ :: _ => true
  | _ :: _, [] => false
  | a :: as, b :: bs => a < b || (a == b && bytesLt as bs)

/-- Lexicographic non-strict order on byte sequences. -/
def bytesLe : List Nat → List Nat → Bool
  | [], _ => true
  | _ :: _, [] => false
  | a :: as, b :: bs => a < b || (a == b && bytesLe as bs)

/-- `prune_ngrams` (ngram.rs): if the table is within the size threshold do
nothing; otherwise retain exactly the entries whose count exceeds 1. -/
def prune_ngrams (ngram_counts : Table) (threshold_size : Nat) : Table :=
  if ngram_counts.length ≤ threshold_size then ngram_counts
  else ngram_counts.filter (fun p => decide (1 < p.2))

/-- `filter_ngrams` (ngram.rs): keep entries with `count > min_frequency`, map
each to `(key, score count)`, and sort (stably) by key in byte order.

The source computes `score count = (count as f64).ln() * 1000.0` cast to
`u64`; that floating-point computation is kept abstract here as the `score`
parameter, since no verified claim depends on the numeric score values. -/
def filter_ngrams (score : Nat → Nat) (ngram_counts : Table) (min_frequency : Nat) :
    List (Str × Nat) :=
  ((ngram_counts.filter (fun p => decide (min_frequency < p.2))).map
    (fun p => (p.1, score p.2))).mergeSort
    (fun a b => bytesLe (strBytes a.1) (strBytes b.1))

/-- Modelled from the spec: the external `fst::MapBuilder` (§4.6).  The spec
requires `insert` to be called with keys strictly greater, in byte order, than
the previously inserted key; a violation is a fatal construction error.  The
builder state holds the last inserted key and the accepted entries. -/
structure FstBuilder where
  lastKey : Option (List Nat)
  entries : List (List Nat × Nat)

/-- Modelled from the spec: one `insert(key, value)` call on the builder.
Accepts the pair only when the key is strictly greater than the last one. -/
def fstInsert (b : FstBuilder) (k : List Nat) (v : Nat) : Except Unit FstBuilder :=
  match b.lastKey with
  | none => .ok ⟨some k, b.entries ++ [(k, v)]⟩
  | some lk =>
    if bytesLt lk k then .ok ⟨some k, b.entries ++ [(k, v)]⟩ else .error ()

/-- Modelled from the spec: `finish()` seals the builder into an immutable
sorted byte-keyed map blob (§4.6); the blob is modelled logically as the
sealed entry sequence. -/
def fstFinish (b : FstBuilder) : List (List Nat × Nat) := b.entries

/-- Modelled from the spec: `Map::get(key)` on a reopened sealed blob — exact
lookup in the sorted byte-keyed map (§4.7). -/
def fstGet : List (List Nat × Nat) → List Nat → Option Nat
  | [], _ => none
  | (k', v) :: rest, k => if k = k' then some v else fstGet rest k

/-- `build_fst` (ngram.rs): insert every `(key, value)` pair, in sequence
order, into a fresh map builder (keys as their UTF-8 bytes), then seal it. -/
def build_fst (data : List (Str × Nat)) : Except Unit (List (List Nat × Nat)) :=
  (data.foldlM (fun b kv => fstInsert b (strBytes kv.1) kv.2) ⟨none, []⟩).map fstFinish

/-- `clean_wiki_markup` (extract.rs), on the character stream, carrying the
template nesting depth (`in_template`) and link flag (`in_link`).  A doubled
delimiter consumes both characters and only updates state; any other
character reaches the emission logic at the bottom of the source loop. -/
def cleanAux : Nat → Bool → List Char → List Char
  | _, _, [] => []
  | d, l, '{' :: '{' :: cs => cleanAux (d + 1) l cs
  | d, l, '}' :: '}' :: cs => cleanAux (d - 1) l cs
  | d, _, '[' :: '[' :: cs => cleanAux d true cs
  | d, _, ']' :: ']' :: cs => cleanAux d false cs
  | d, l, c :: cs =>
    if l = true ∧ c = '|' then cleanAux d l cs
    else if d = 0 ∧ l = false then c :: cleanAux d l cs
    else if l = true ∧ c ≠ '[' ∧ c ≠ ']' then c :: cleanAux d l cs
    else cleanAux d l cs

/-- `clean_wiki_markup` entry point: the scan starts outside any template or
link. -/
def clean_wiki_markup (text : List Char) : List Char := cleanAux 0 false text

/-- One record per character consumed by the cleaner's scan: the character,
the state (`depth`, `link`) at the moment it is consumed, whether it is
consumed as part of a markup construct (a doubled delimiter, or a pipe inside
a link), and whether it is emitted to the output. -/
structure ScanEntry where
  ch : Char
  depth : Nat
  link : Bool
  markup : Bool
  emitted : Bool
deriving DecidableEq, Repr

/-- Instrumented cleaner scan: same traversal and state updates as
`cleanAux`, recording a `ScanEntry` for every consumed character. -/
def cleanScan : Nat → Bool → List Char → List ScanEntry
  | _, _, [] => []
  | d, l, '{' :: '{' :: cs =>
    ⟨'{', d, l, true, false⟩ :: ⟨'{', d, l, true, false⟩ :: cleanScan (d + 1) l cs
  | d, l, '}' :: '}' :: cs =>
    ⟨'}', d, l, true, false⟩ :: ⟨'}', d, l, true, false⟩ :: cleanScan (d - 1) l cs
  | d, l, '[' :: '[' :: cs =>
    ⟨'[', d, l, true, false⟩ :: ⟨'[', d, l, true, false⟩ :: cleanScan d true cs
  | d, l, ']' :: ']' :: cs =>
    ⟨']', d, l, true, false⟩ :: ⟨']', d, l, true, false⟩ :: cleanScan d false cs
  | d, l, c :: cs =>
    if l = true ∧ c = '|' then ⟨c, d, l, true, false⟩ :: cleanScan d l cs
    else if d = 0 ∧ l = false then ⟨c, d, l, false, true⟩ :: cleanScan d l cs
    else if l = true ∧ c ≠ '[' ∧ c ≠ ']' then ⟨c, d, l, false, true⟩ :: cleanScan d l cs
    else ⟨c, d, l, false, false⟩ :: cleanScan d l cs

/-- Rust `char::is_whitespace`: the Unicode `White_Space` property. -/
def isRustWhitespace (c : Char) : Bool :=
  c.toNat ∈ ([0x09, 0x0A, 0x0B, 0x0C, 0x0D, 0x20, 0x85, 0xA0, 0x1680,
    0x2000, 0x2001, 0x2002, 0x2003, 0x2004, 0x2005, 0x2006, 0x2007, 0x2008,
    0x2009, 0x200A, 0x2028, 0x2029, 0x202F, 0x205F, 0x3000] : List Nat)

/-- Rust `str::trim`: strip whitespace characters from both ends. -/
def trimChars (s : Str) : Str :=
  ((s.dropWhile isRustWhitespace).reverse.dropWhile isRustWhitespace).reverse

/-- The sentence-terminal characters of `process_article`'s split closure. -/
def isSentenceSep (c : Char) : Bool :=
  c = '。' || c = '\n' || c = '.' || c = '！' || c = '？'

/-- Rust `str::split` with the sentence-separator predicate: separator
characters are dropped, empty pieces (including leading/trailing) are kept. -/
def splitSentences : Str → List Str
  | [] => [[]]
  | c :: cs =>
    match splitSentences cs with
    | [] => [[]]
    | piece :: rest =>
      if isSentenceSep c then [] :: piece :: rest else (c :: piece) :: rest

/-- The body of `process_article`'s per-sentence loop (extract.rs): trim the
piece, skip it when its byte length (`str::len`) is under 3, tokenize it
(via the external Tokenizer capability `tok`), skip it when it yields fewer
than 2 tokens, else accumulate its n-grams. -/
def sentenceStep (tok : Str → List Str) (max_ngram : Nat) (t : Table) (sentence : Str) :
    Table :=
  let s := trimChars sentence
  if (strBytes s).length < 3 then t
  else
    let tokens := tok s
    if tokens.length < 2 then t
    else extract_ngrams_from_tokens tokens max_ngram t

/-- `process_article` (extract.rs): split the cleaned text into sentence
pieces and fold the per-sentence step over them. -/
def process_article (tok : Str → List Str) (text : Str) (max_ngram : Nat)
    (ngram_counts : Table) : Table :=
  (splitSentences text).foldl (sentenceStep tok max_ngram) ngram_counts

/-- The XML pull events relevant to `process_wikipedia`: start/end tags carry
their name's bytes, text events carry the unescaped content when unescaping
succeeds (`e.unescape()` is `Ok`), `eof` ends the stream, and `other` stands
for every event kind the loop ignores. -/
inductive XmlEvent where
  | start (name : List Nat)
  | endTag (name : List Nat)
  | text (content : Option Str)
  | eof
  | other

/-- One item yielded by `reader.read_event_into`: an event, or a parse
error. -/
abbrev XmlItem := Except Unit XmlEvent

/-- The loop state of `process_wikipedia`: the `in_text` flag, the text
accumulator, the shared frequency table, and the article counter. -/
structure WikiState where
  inText : Bool
  currentText : Str
  counts : Table
  articles : Nat

/-- The byte name `b"text"` of the text-bearing element. -/
def textTag : List Nat := [116, 101, 120, 116]

/-- The event loop of `process_wikipedia` (extract.rs) over a stream of
reader items: a parse error or `Eof` breaks out of the loop (returning the
counts accumulated so far); a `<text>` start begins accumulation; text
content is appended while inside `<text>`; a `</text>` end cleans the
accumulated markup and, when the cleaned text is non-empty, processes the
article and stops once the optional article cap is reached. -/
def runEvents (tok : Str → List Str) (max_ngram : Nat) (limit : Option Nat) :
    WikiState → List XmlItem → Table
  | st, [] => st.counts
  | st, .error _ :: _ => st.counts
  | st, .ok ev :: rest =>
    match ev with
    | .eof => st.counts
    | .other => runEvents tok max_ngram limit st rest
    | .start n =>
      runEvents tok max_ngram limit
        (if n = textTag then { st with inText := true, currentText := [] } else st) rest
    | .text c =>
      runEvents tok max_ngram limit
        (if st.inText then
          match c with
          | some s => { st with currentText := st.currentText ++ s }
          | none => st
        else st) rest
    | .endTag n =>
      if n = textTag ∧ st.inText then
        let cleanText := clean_wiki_markup st.currentText
        if cleanText = [] then
          runEvents tok max_ngram limit { st with inText := false } rest
        else
          let st' : WikiState :=
            { inText := false
              currentText := st.currentText
              counts := process_article tok cleanText max_ngram st.counts
              articles := st.articles + 1 }
          match limit with
          | some l => if l ≤ st'.articles then st'.counts else runEvents tok max_ngram limit st' rest
          | none => runEvents tok max_ngram limit st' rest
      else runEvents tok max_ngram limit st rest

/-- The initial loop state of `process_wikipedia`. -/
def initWikiState : WikiState := ⟨false, [], [], 0⟩

/-- `process_wikipedia` (extract.rs), modelled from the event loop onward:
the function returns `Ok(ngram_counts)` with whatever the loop accumulated;
no loop outcome produces an `Err`. -/
def process_wikipedia (tok : Str → List Str) (max_ngram : Nat) (limit : Option Nat)
    (items : List XmlItem) : Except Unit Table :=
  .ok (runEvents tok max_ngram limit initWikiState items)

theorem bytesLt_irrefl (a : List Nat) : bytesLt a a = false := by
  induction a with
  | nil => rfl
  | cons x as ih => simp [bytesLt, ih]

theorem bytesLt_trans {a b c : List Nat} (h1 : bytesLt a b = true) (h2 : bytesLt b c = true) :
    bytesLt a c = true := by
  induction a generalizing b c with
  | nil => cases b <;> cases c <;> simp_all [bytesLt]
  | cons x as ih =>
    cases b with
    | nil => simp [bytesLt] at h1
    | cons y bs =>
      cases c with
      | nil => simp [bytesLt] at h2
      | cons z cs =>
        simp only [bytesLt, Bool.or_eq_true, Bool.and_eq_true, beq_iff_eq,
          decide_eq_true_eq] at h1 h2 ⊢
        rcases h1 with h1 | ⟨rfl, h1⟩
        · rcases h2 with h2 | ⟨rfl, h2⟩
          · exact Or.inl (Nat.lt_trans h1 h2)
          · exact Or.inl h1
        · rcases h2 with h2 | ⟨rfl, h2⟩
          · exact Or.inl h2
          · exact Or.inr ⟨rfl, ih h1 h2⟩

theorem bytesLe_trans {a b c : List Nat} (h1 : bytesLe a b = true) (h2 : bytesLe b c = true) :
    bytesLe a c = true := by
  induction a generalizing b c with
  | nil => simp [bytesLe]
  | cons x as ih =>
    cases b with
    | nil => simp [bytesLe] at h1
    | cons y bs =>
      cases c with
      | nil => simp [bytesLe] at h2
      | cons z cs =>
        simp only [bytesLe, Bool.or_eq_true, Bool.and_eq_true, beq_iff_eq,
          decide_eq_true_eq] at h1 h2 ⊢
        rcases h1 with h1 | ⟨rfl, h1⟩
        · rcases h2 with h2 | ⟨rfl, h2⟩
          · exact Or.inl (Nat.lt_trans h1 h2)
          · exact Or.inl h1
        · rcases h2 with h2 | ⟨rfl, h2⟩
          · exact Or.inl h2
          · exact Or.inr ⟨rfl, ih h1 h2⟩

theorem bytesLe_total (a b : List Nat) : (bytesLe a b || bytesLe b a) = true := by
  induction a generalizing b with
  | nil => simp [bytesLe]
  | cons x as ih =>
    cases b with
    | nil => simp [bytesLe]
    | cons y bs =>
      simp only [bytesLe, Bool.or_eq_true, Bool.and_eq_true, beq_iff_eq, decide_eq_true_eq]
      rcases Nat.lt_trichotomy x y with h | rfl | h
      · exact Or.inl (Or.inl h)
      · rcases (Bool.or_eq_true _ _).mp (ih bs) with h | h
        · exact Or.inl (Or.inr ⟨rfl, h⟩)
        · exact Or.inr (Or.inr ⟨rfl, h⟩)
      · exact Or.inr (Or.inl h)

theorem bytesLt_of_le_of_ne {a b : List Nat} (h1 : bytesLe a b = true) (h2 : a ≠ b) :
    bytesLt a b = true := by
  induction a generalizing b with
  | nil => cases b with
    | nil => exact absurd rfl h2
    | cons y bs => rfl
  | cons x as ih =>
    cases b with
    | nil => simp [bytesLe] at h1
    | cons y bs =>
      simp only [bytesLe, Bool.or_eq_true, Bool.and_eq_true, beq_iff_eq,
        decide_eq_true_eq] at h1
      simp only [bytesLt, Bool.or_eq_true, Bool.and_eq_true, beq_iff_eq, decide_eq_true_eq]
      rcases h1 with h1 | ⟨rfl, h1⟩
      · exact Or.inl h1
      · refine Or.inr ⟨rfl, ih h1 ?_⟩
        intro h; exact h2 (by rw [h])

theorem getCount_bump (t : Table) (w k : Str) :
    getCount (bump t w) k = getCount t k + if k = w then 1 else 0 := by
  induction t with
  | nil => by_cases h : k = w <;> simp [bump, getCount, h]
  | cons p rest ih =>
    obtain ⟨k', v⟩ := p
    by_cases hw : w = k'
    · subst hw
      by_cases hk : k = w <;> simp [bump, getCount, hk]
    · by_cases hk : k = k'
      · have hkw : ¬ k = w := fun h => hw (h ▸ hk)
        have hk'w : ¬ k' = w := fun h => hw h.symm
        simp [bump, hw, getCount, hk, hkw, hk'w]
      · simp [bump, hw, getCount, hk, ih]

theorem getCount_foldl_bump (ws : List (List Str)) (t : Table) (k : Str) :
    getCount (ws.foldl (fun a w => bump a (joinSpace w)) t) k
      = getCount t k + ws.countP (fun w => decide (joinSpace w = k)) := by
  induction ws generalizing t with
  | nil => simp
  | cons w ws ih =>
    rw [List.foldl_cons, ih, getCount_bump, List.countP_cons]
    by_cases h : joinSpace w = k
    · simp [h]; omega
    · have h' : ¬ k = joinSpace w := fun hh => h (hh ▸ rfl)
      simp [h, h']

theorem windows_eq_nil_of_lt {n : Nat} {xs : List α} (h : xs.length < n) :
    windows n xs = [] := by
  cases xs with
  | nil => rfl
  | cons x xs => simp only [windows, if_neg (Nat.not_le.mpr h)]

theorem getCount_extract_go (ns : List Nat) (tokens : List Str) (t : Table) (k : Str) :
    getCount
      (ns.foldl
        (fun acc n =>
          if tokens.length < n then acc
          else (windows n tokens).foldl (fun a w => bump a (joinSpace w)) acc) t) k
      = getCount t k
        + (ns.map (fun n => (windows n tokens).countP (fun w => decide (joinSpace w = k)))).sum := by
  induction ns generalizing t with
  | nil => simp
  | cons n ns ih =>
    simp only [List.foldl_cons, List.map_cons, List.sum_cons]
    by_cases h : tokens.length < n
    · rw [if_pos h, ih, windows_eq_nil_of_lt h]
      simp
    · rw [if_neg h, ih, getCount_foldl_bump]
      omega

/-- Claim C2: for every frequency table (whose keys, as a hash map's, are
pairwise distinct — stated on their UTF-8 encodings, which distinct strings
have) and every `min_frequency`, the sequence returned by `filter_ngrams` is
strictly ascending by key in byte order: every pair of entries in output
order satisfies `key[i] < key[i+1]` bytewise, so no two distinct output keys
compare equal. -/
theorem filter_ngrams_strictly_ascending (score : Nat → Nat) (t : Table) (mf : Nat)
    (h : (t.map (fun p => strBytes p.1)).Nodup) :
    (filter_ngrams score t mf).Pairwise
      (fun p q => bytesLt (strBytes p.1) (strBytes q.1) = true) := by
  unfold filter_ngrams
  have htrans : ∀ a b : Str × Nat, ∀ c : Str × Nat,
      bytesLe (strBytes a.1) (strBytes b.1) → bytesLe (strBytes b.1) (strBytes c.1) →
      bytesLe (strBytes a.1) (strBytes c.1) := by
    intro a b c h1 h2
    exact bytesLe_trans h1 h2
  have htotal : ∀ a b : Str × Nat,
      (bytesLe (strBytes a.1) (strBytes b.1) || bytesLe (strBytes b.1) (strBytes a.1)) := by
    intro a b
    exact bytesLe_total _ _
  have hsorted := List.sorted_mergeSort htrans htotal
    ((t.filter (fun p => decide (mf < p.2))).map (fun p => (p.1, score p.2)))
  have hnd1 : ((t.filter (fun p => decide (mf < p.2))).map (fun p => strBytes p.1)).Nodup :=
    h.sublist ((List.filter_sublist t).map (fun p => strBytes p.1))
  have hnd2 : (((t.filter (fun p => decide (mf < p.2))).map (fun p => (p.1, score p.2))).map
      (fun p => strBytes p.1)).Nodup := by
    rw [List.map_map]
    exact hnd1
  have hperm : List.Perm
      ((((t.filter (fun p => decide (mf < p.2))).map (fun p => (p.1, score p.2))).mergeSort
        (fun a b => bytesLe (strBytes a.1) (strBytes b.1))).map (fun p => strBytes p.1))
      (((t.filter (fun p => decide (mf < p.2))).map (fun p => (p.1, score p.2))).map
        (fun p => strBytes p.1)) :=
    (List.mergeSort_perm _ _).map _
  have hnd3 := hperm.symm.nodup hnd2
  have hne : (((t.filter (fun p => decide (mf < p.2))).map (fun p => (p.1, score p.2))).mergeSort
      (fun a b => bytesLe (strBytes a.1) (strBytes b.1))).Pairwise
      (fun p q => strBytes p.1 ≠ strBytes q.1) := by
    exact List.pairwise_map.mp hnd3
  exact (hsorted.and hne).imp (fun hpq => bytesLt_of_le_of_ne hpq.1 hpq.2)

theorem exists_entry_iff_getCount (t : Table) (mf : Nat) (k : Str)
    (h : (t.map Prod.fst).Nodup) :
    (∃ p ∈ t, mf < p.2 ∧ p.1 = k) ↔ mf < getCount t k := by
  induction t with
  | nil => simp [getCount]
  | cons p rest ih =>
    obtain ⟨k', v⟩ := p
    simp only [List.map_cons, List.nodup_cons] at h
    obtain ⟨hk', hnd⟩ := h
    by_cases hkk : k = k'
    · subst hkk
      simp only [getCount, if_pos rfl]
      constructor
      · rintro ⟨q, hq, hv, hqk⟩
        rcases List.mem_cons.mp hq with rfl | hq
        · exact hv
        · exact absurd (hqk ▸ List.mem_map_of_mem Prod.fst hq) hk'
      · intro hv
        exact ⟨(k, v), List.mem_cons_self _ _, hv, rfl⟩
    · rw [getCount, if_neg hkk]
      rw [← ih hnd]
      constructor
      · rintro ⟨q, hq, hv, hqk⟩
        rcases List.mem_cons.mp hq with rfl | hq
        · exact absurd hqk.symm hkk
        · exact ⟨q, hq, hv, hqk⟩
      · rintro ⟨q, hq, hv, hqk⟩
        exact ⟨q, List.mem_cons_of_mem _ hq, hv, hqk⟩

/-- Claim C8: for every frequency table (with the hash map's distinct-keys
invariant) and every `min_frequency`, a key appears in the output of
`filter_ngrams` iff its count in the table is strictly greater than
`min_frequency`; in particular a key whose count equals `min_frequency` is
filtered out. -/
theorem filter_ngrams_mem_iff (score : Nat → Nat) (t : Table) (mf : Nat) (k : Str)
    (h : (t.map Prod.fst).Nodup) :
    (k ∈ (filter_ngrams score t mf).map Prod.fst) ↔ mf < getCount t k := by
  unfold filter_ngrams
  rw [List.Perm.mem_iff ((List.mergeSort_perm _ _).map Prod.fst)]
  rw [← exists_entry_iff_getCount t mf k h]
  simp only [List.mem_map, List.mem_filter, decide_eq_true_eq]
  constructor
  · rintro ⟨q, ⟨p, ⟨hp, hv⟩, rfl⟩, hqk⟩
    exact ⟨p, hp, hv, hqk⟩
  · rintro ⟨p, hp, hv, hpk⟩
    exact ⟨(p.1, score p.2), ⟨p, ⟨hp, hv⟩, rfl⟩, hpk⟩

theorem build_fst_go (data : List (Str × Nat)) :
    ∀ b : FstBuilder,
      (data.map (fun p => strBytes p.1)).Chain' (fun x y => bytesLt x y = true) →
      (∀ lk, b.lastKey = some lk → ∀ q, data.head? = some q →
        bytesLt lk (strBytes q.1) = true) →
      ∃ b' : FstBuilder,
        data.foldlM (fun acc kv => fstInsert acc (strBytes kv.1) kv.2) b = .ok b' ∧
        b'.entries = b.entries ++ data.map (fun p => (strBytes p.1, p.2)) := by
  induction data with
  | nil =>
    intro b _ _
    exact ⟨b, rfl, by simp⟩
  | cons kv rest ih =>
    intro b hchain hhead
    have hstep : fstInsert b (strBytes kv.1) kv.2
        = .ok ⟨some (strBytes kv.1), b.entries ++ [(strBytes kv.1, kv.2)]⟩ := by
      cases hb : b.lastKey with
      | none => simp [fstInsert, hb]
      | some lk => simp [fstInsert, hb, hhead lk hb kv rfl]
    have hchain' : (rest.map (fun p => strBytes p.1)).Chain' (fun x y => bytesLt x y = true) :=
      (List.chain'_cons'.mp (by simpa using hchain)).2
    have hhead' : ∀ lk, (some (strBytes kv.1) : Option (List Nat)) = some lk →
        ∀ q, rest.head? = some q → bytesLt lk (strBytes q.1) = true := by
      intro lk hlk q hq
      obtain rfl : strBytes kv.1 = lk := by simpa using hlk
      cases rest with
      | nil => simp at hq
      | cons r rs =>
        obtain rfl : r = q := by simpa using hq
        have := List.chain'_cons.mp (show List.Chain' (fun x y => bytesLt x y = true)
          (strBytes kv.1 :: strBytes r.1 :: rs.map (fun p => strBytes p.1)) by
            simpa using hchain)
        exact this.1
    obtain ⟨b', hb', hentries⟩ :=
      ih ⟨some (strBytes kv.1), b.entries ++ [(strBytes kv.1, kv.2)]⟩ hchain' hhead'
    refine ⟨b', ?_, ?_⟩
    · rw [List.foldlM_cons, hstep]
      simpa using hb'
    · simpa [List.append_assoc] using hentries

theorem fstGet_of_pairwise (l : List (List Nat × Nat))
    (h : l.Pairwise (fun a b => bytesLt a.1 b.1 = true)) :
    ∀ kv ∈ l, fstGet l kv.1 = some kv.2 := by
  induction l with
  | nil => intro kv hkv; simp at hkv
  | cons q rest ih =>
    rw [List.pairwise_cons] at h
    obtain ⟨hq, hrest⟩ := h
    intro kv hkv
    rcases List.mem_cons.mp hkv with rfl | hkv'
    · obtain ⟨k, v⟩ := kv
      simp [fstGet]
    · obtain ⟨k', v'⟩ := q
      have hne : kv.1 ≠ k' := by
        intro he
        have := hq kv hkv'
        rw [he] at this
        simp at this
        rw [bytesLt_irrefl] at this
        exact Bool.false_ne_true this
      rw [fstGet, if_neg hne]
      exact ih hrest kv hkv'

theorem runEvents_append_error (tok : Str → List Str) (maxN : Nat) (limit : Option Nat)
    (es rest : List XmlItem) (e : Unit) :
    ∀ st, runEvents tok maxN limit st (es ++ .error e :: rest)
      = runEvents tok maxN limit st es := by
  induction es with
  | nil => intro st; rfl
  | cons item es ih =>
    intro st
    cases item with
    | error err => rfl
    | ok ev =>
      cases ev with
      | eof => rfl
      | other =>
        simp only [List.cons_append, runEvents]
        exact ih _
      | start n =>
        simp only [List.cons_append, runEvents]
        exact ih _
      | text c =>
        simp only [List.cons_append, runEvents]
        exact ih _
      | endTag n =>
        simp only [List.cons_append, runEvents]
        split
        · split
          · exact ih _
          · split
            · split
              · rfl
              · exact ih _
            · exact ih _
        · exact ih _

theorem cleanAux_eq_cleanScan (d : Nat) (l : Bool) (cs : List Char) :
    cleanAux d l cs
      = ((cleanScan d l cs).filter (fun e => e.emitted)).map (fun e => e.ch) := by
  induction d, l, cs using cleanAux.induct <;>
    simp only [cleanAux, cleanScan] <;>
    (try split_ifs) <;> simp_all

/-- Claim C4 (amended): every character scanned while the template nesting
depth is greater than 0 *and the scanner is not inside a link span* is
dropped (not emitted).  The claim as stated — all characters at depth > 0 are
dropped — fails: link text inside a template is emitted (see the
counterexample); `cleanAux_eq_cleanScan` ties emission to the cleaner's
output. -/
theorem cleanScan_template_dropped :
    ∀ (d : Nat) (l : Bool) (cs : List Char),
      ∀ e ∈ cleanScan d l cs, 0 < e.depth → e.link = false → e.emitted = false := by
  intro d l cs
  induction d, l, cs using cleanScan.induct <;>
    simp only [cleanScan] <;>
    (try split_ifs) <;>
    simp_all [List.forall_mem_cons]

/-- Claim C5 (amended): every character scanned while the cleaner is outside
both a template block (depth 0) and a link span, *and not consumed as markup*
(the two characters of a `\x7b\x7b`, `\x7d\x7d`, `[[` or `]]` digraph), is emitted
unchanged; `cleanAux_eq_cleanScan` ties emission to the cleaner's output.
The claim as stated fails on the opening characters of a construct, which are
scanned at depth 0 outside any link yet dropped. -/
theorem cleanScan_passthrough :
    ∀ (d : Nat) (l : Bool) (cs : List Char),
      ∀ e ∈ cleanScan d l cs, e.depth = 0 → e.link = false → e.markup = false →
        e.emitted = true := by
  intro d l cs
  induction d, l, cs using cleanScan.induct <;>
    simp only [cleanScan] <;>
    (try split_ifs) <;>
    simp_all [List.forall_mem_cons]

/-- Claim C1 (amended): `extract_ngrams_from_tokens` increments each key's
count by exactly the number of contiguous windows (over all n in
`2..=max_ngram` with n within the token count) whose space-joined key equals
it — which is 1 for each window key when no two windows join to the same
string — and changes no other entry; in particular the 6 example tokens with
`max_ngram = 2` leave an empty table holding exactly the five bigrams, each
with count 1.  The claim as stated ("by exactly 1") fails when duplicate
windows occur (see the counterexample). -/
theorem extract_ngrams_window_multiplicity :
    (∀ (tokens : List Str) (m : Nat) (t : Table) (k : Str),
      getCount (extract_ngrams_from_tokens tokens m t) k
        = getCount t k + ngramOccurrences tokens m k) ∧
    extract_ngrams_from_tokens
        [['東', '京'], ['は'], ['日', '本'], ['の'], ['首', '都'], ['で', 'す']] 2 []
      = [(['東', '京', ' ', 'は'], 1), (['は', ' ', '日', '本'], 1),
         (['日', '本', ' ', 'の'], 1), (['の', ' ', '首', '都'], 1),
         (['首', '都', ' ', 'で', 'す'], 1)] := by
  constructor
  · intro tokens m t k
    exact getCount_extract_go _ _ _ _
  · decide

/-- Claim C1 (counterexample): with tokens "a" "a" "a" and `max_ngram = 2`,
the key "a a" is produced by two distinct windows, so starting from an empty
table its count becomes 2, not 1 as the claim's "increments by exactly 1"
demands. -/
theorem extract_ngrams_exactly_once_cex :
    getCount (extract_ngrams_from_tokens [['a'], ['a'], ['a']] 2 []) ['a', ' ', 'a'] = 2 ∧
    ¬ (getCount (extract_ngrams_from_tokens [['a'], ['a'], ['a']] 2 []) ['a', ' ', 'a']
        = getCount ([] : Table) ['a', ' ', 'a'] + 1) := by
  decide

/-- Witness for Claim C2 at a concrete two-entry table. -/
theorem filter_ngrams_strictly_ascending_witness :
    (filter_ngrams id [(['b'], 5), (['a'], 3)] 0).Pairwise
      (fun p q => bytesLt (strBytes p.1) (strBytes q.1) = true) :=
  filter_ngrams_strictly_ascending id [(['b'], 5), (['a'], 3)] 0 (by decide)

/-- Claim C3: for every list of (key, value) pairs whose keys are strictly
ascending in byte order, `build_fst` succeeds, and on the sealed blob
(modelled from the spec as a sorted byte-keyed map) `get` returns
`some value` for every inserted pair. -/
theorem build_fst_roundtrip (data : List (Str × Nat))
    (h : (data.map (fun p => strBytes p.1)).Chain' (fun x y => bytesLt x y = true)) :
    ∃ blob, build_fst data = .ok blob ∧
      ∀ kv ∈ data, fstGet blob (strBytes kv.1) = some kv.2 := by
  obtain ⟨b', hb', hentries⟩ :=
    build_fst_go data ⟨none, []⟩ h (by intro lk hlk; simp at hlk)
  refine ⟨data.map (fun p => (strBytes p.1, p.2)), ?_, ?_⟩
  · unfold build_fst
    rw [hb']
    simp only [Except.map, fstFinish, hentries, List.nil_append]
  · have hpw : (data.map (fun p => (strBytes p.1, p.2))).Pairwise
        (fun a b => bytesLt a.1 b.1 = true) := by
      rw [List.pairwise_map]
      have hit : IsTrans (List Nat) (fun x y => bytesLt x y = true) :=
        ⟨fun a b c => bytesLt_trans⟩
      have hp := List.chain'_iff_pairwise.mp h
      exact List.pairwise_map.mp hp
    intro kv hkv
    exact fstGet_of_pairwise _ hpw (strBytes kv.1, kv.2) (List.mem_map_of_mem _ hkv)

/-- Witness for Claim C3 at a concrete two-pair list. -/
theorem build_fst_roundtrip_witness :
    ∃ blob, build_fst [(['a'], 5), (['b'], 7)] = .ok blob ∧
      ∀ kv ∈ ([(['a'], 5), (['b'], 7)] : List (Str × Nat)),
        fstGet blob (strBytes kv.1) = some kv.2 :=
  build_fst_roundtrip [(['a'], 5), (['b'], 7)]
    (by simp only [List.map_cons, List.map_nil, List.chain'_pair]; decide)

/-- Claim C4 (counterexample): in the input consisting of an opening template
followed by an opening link and the letter a, the letter is scanned at
template depth 1 yet emitted, because the in-link emission branch overrides
the template drop; so not every character scanned at depth > 0 is dropped. -/
theorem clean_template_dropped_cex :
    ¬ (∀ e ∈ cleanScan 0 false ['{', '{', '[', '[', 'a'],
        0 < e.depth → e.emitted = false) := by
  decide

/-- Witness for Claim C4 (amended): the letter a scanned at depth 1 outside
any link (after an opening template digraph) is not emitted. -/
theorem cleanScan_template_dropped_witness :
    (⟨'a', 1, false, false, false⟩ : ScanEntry).emitted = false :=
  cleanScan_template_dropped 0 false ['{', '{', 'a']
    ⟨'a', 1, false, false, false⟩ (by decide) (by decide) (by decide)

/-- Claim C5 (counterexample): the two characters of an opening template
digraph are scanned at depth 0 outside any link yet are dropped, so not every
character scanned in that state is appended to the output. -/
theorem clean_passthrough_cex :
    ¬ (∀ e ∈ cleanScan 0 false ['{', '{'],
        e.depth = 0 → e.link = false → e.emitted = true) := by
  decide

/-- Witness for Claim C5 (amended): a plain letter scanned at depth 0 outside
any link and not consumed as markup is emitted. -/
theorem cleanScan_passthrough_witness :
    (⟨'a', 0, false, false, true⟩ : ScanEntry).emitted = true :=
  cleanScan_passthrough 0 false ['a'] ⟨'a', 0, false, false, true⟩
    (by decide) (by decide) (by decide) (by decide)

/-- A concrete Tokenizer capability for the C6 counterexample: it tokenizes
any sentence into the two single-character tokens "あ", "あ" (the external
tokenizer contract allows any surface segmentation). -/
def tokHiragana : Str → List Str := fun _ => [['あ'], ['あ']]

/-- Claim C6 (counterexample): the two-character piece "ああ" is shorter than
3 characters, yet its UTF-8 byte length (the `str::len` the code tests) is 6,
so the segmentation step keeps it and — under a tokenizer yielding two
tokens — it contributes a bigram to the table. -/
theorem sentence_min_len_chars_cex :
    (trimChars ['あ', 'あ']).length < 3 ∧
    ¬ (sentenceStep tokHiragana 2 [] ['あ', 'あ'] = []) := by
  decide

/-- Claim C6 (amended): every split-and-trimmed sentence piece shorter than
3 *UTF-8 bytes* (Rust `str::len`, not characters) is discarded by the
segmentation step and contributes zero n-grams: the per-sentence step leaves
the frequency table unchanged. -/
theorem sentenceStep_short_bytes_noop (tok : Str → List Str) (m : Nat) (t : Table)
    (piece : Str) (h : (strBytes (trimChars piece)).length < 3) :
    sentenceStep tok m t piece = t := by
  unfold sentenceStep
  simp [h]

/-- Witness for Claim C6 (amended): a one-byte piece is discarded. -/
theorem sentenceStep_short_bytes_noop_witness :
    sentenceStep tokHiragana 2 [] ['a'] = [] :=
  sentenceStep_short_bytes_noop tokHiragana 2 [] ['a'] (by decide)

/-- Claim C7 (counterexample): with a 1-entry table and threshold 10 the
size guard makes `prune_ngrams` a no-op, so an entry with count 1 survives,
contradicting "every remaining entry has count >= 2" as stated for every
threshold. -/
theorem prune_ngrams_hapax_cex :
    ¬ (∀ p ∈ prune_ngrams [(['a'], 1)] 10, 2 ≤ p.2) := by
  decide

/-- Claim C7 (amended): whenever the table's size exceeds `threshold_size`
(so the prune actually fires), the surviving entries are exactly the table's
entries with count >= 2, kept with unchanged key and count — equivalently,
the removed entries are exactly those with count <= 1, i.e. exactly the
count-1 entries for tables whose counts (as accumulated occurrence counts)
are at least 1. -/
theorem prune_ngrams_over_threshold_spec (t : Table) (th : Nat) (h : th < t.length) :
    ∀ p : Str × Nat, p ∈ prune_ngrams t th ↔ p ∈ t ∧ 2 ≤ p.2 := by
  intro p
  unfold prune_ngrams
  rw [if_neg (by omega)]
  simp only [List.mem_filter, decide_eq_true_eq]
  exact Iff.rfl

/-- Witness for Claim C7 (amended) at a concrete table over threshold. -/
theorem prune_ngrams_over_threshold_spec_witness :
    (['b'], 2) ∈ prune_ngrams [(['a'], 1), (['b'], 2)] 1 ↔
      (['b'], 2) ∈ ([(['a'], 1), (['b'], 2)] : Table) ∧ 2 ≤ 2 :=
  prune_ngrams_over_threshold_spec [(['a'], 1), (['b'], 2)] 1 (by decide) (['b'], 2)

/-- Witness for Claim C8 at a concrete one-entry table. -/
theorem filter_ngrams_mem_iff_witness :
    (['a'] ∈ (filter_ngrams id [(['a'], 2)] 1).map Prod.fst) ↔
      1 < getCount [(['a'], 2)] ['a'] :=
  filter_ngrams_mem_iff id [(['a'], 2)] 1 ['a'] (by decide)

/-- Claim C9: when the reader yields a parse error mid-stream,
`process_wikipedia` stops consuming the stream (the items after the error are
irrelevant to the result) and returns a successful `Ok` result holding
exactly the n-gram counts accumulated from the articles before the error. -/
theorem process_wikipedia_partial_on_error (tok : Str → List Str) (maxN : Nat)
    (limit : Option Nat) (es rest : List XmlItem) (e : Unit) :
    process_wikipedia tok maxN limit (es ++ .error e :: rest)
      = .ok (runEvents tok maxN limit initWikiState es) := by
  unfold process_wikipedia
  rw [runEvents_append_error tok maxN limit es rest e initWikiState]

/-- Claim C10: when the table's size is at most `threshold_size`,
`prune_ngrams` returns the table completely unchanged — even count-1 entries
survive. -/
theorem prune_ngrams_below_threshold_id (t : Table) (th : Nat) (h : t.length ≤ th) :
    prune_ngrams t th = t := by
  unfold prune_ngrams
  rw [if_pos h]

/-- Witness for Claim C10: a small table with a count-1 entry is untouched. -/
theorem prune_ngrams_below_threshold_id_witness :
    prune_ngrams [(['a'], 1)] 3 = [(['a'], 1)] :=
  prune_ngrams_below_threshold_id [(['a'], 1)] 3 (by decide)
